import Mathlib

/-!
# Verification of the `SearchEngine` (src/search.ts) of open-docs-mcp

Shallow embedding of the search engine found in `src/unnamed/part_002`
(`class SearchEngine`).  The engine state (`index`, `docStore`, `indexPath`)
becomes an explicit record, the methods become pure functions, and the two
crash points of the TypeScript code are made visible as `Except` errors:

* `throw new Error('Index not initialized')` (line 110)  →  `SearchError.notInitialized`
* reading `this.docStore[result.ref].title/...` when the entry is absent
  (lines 118 and 127 dereference the lookup without a check; in JavaScript
  this raises `TypeError: Cannot read properties of undefined`)
  →  `SearchError.docMissing`

The full-text scoring is delegated by the source to the external `lunr`
library.  `lunr` is not part of this repository; it is modelled here
concretely, following the external contract stated by the specification
(tokenization on whitespace and hyphen with case folding — lunr's default
separator -, title field boosted over content, deterministic scores, results
sorted by descending score with ties in stable index-reference order).
Scores are rationals, standing in for the library's floating point relevance
values; no claim below depends on the numeric value of a score.
-/

namespace SearchEngine

/-- `interface DocEntry` of the source: `path`, `title`, `content`. -/
structure DocEntry where
  path : String
  title : String
  content : String
deriving DecidableEq

/-- One document as recorded inside the (modelled) lunr index: its `ref`
(the engine registers `this.ref('path')`) and the case-folded token lists of
the two registered fields `title` and `content`. -/
structure IndexedDoc where
  ref : String
  titleToks : List (List Char)
  contentToks : List (List Char)
deriving DecidableEq

/-- The in-memory inverted index of one generation, in build insertion
order.  Position in this list is the stable reference order of lunr. -/
abbrev LunrIndexData := List IndexedDoc

/-- lunr's default token separator (whitespace and hyphen). -/
def isSep (c : Char) : Bool :=
  c = ' ' || c = '\t' || c = '\n' || c = '\r' || c = '-'

/-- Split a character list at separators, dropping empty pieces. -/
def splitToksAux : List Char → List Char → List (List Char)
  | [], acc => if acc.isEmpty then [] else [acc.reverse]
  | c :: cs, acc =>
    if isSep c then
      (if acc.isEmpty then splitToksAux cs [] else acc.reverse :: splitToksAux cs [])
    else splitToksAux cs (c :: acc)

/-- Case-folded tokenization of a field or query string. -/
def tokenize (s : String) : List (List Char) :=
  splitToksAux (s.data.map Char.toLower) []

/-- Term-frequency score of one document for the given query tokens, with
the title field boosted over the content field. -/
def docScore (qts : List (List Char)) (d : IndexedDoc) : ℚ :=
  ((qts.foldl
      (fun acc t => acc + 10 * d.titleToks.count t + d.contentToks.count t)
      (0 : ℕ) : ℕ) : ℚ)

/-- One raw search hit: document reference, relevance score and the
position of the document in the index (its build insertion order). -/
structure Hit where
  ref : String
  score : ℚ
  pos : Nat
deriving DecidableEq

/-- Candidate hits in index order: documents with a positive score. -/
def scoredHitsAux (qts : List (List Char)) : Nat → LunrIndexData → List Hit
  | _, [] => []
  | i, d :: ds =>
    if 0 < docScore qts d then
      { ref := d.ref, score := docScore qts d, pos := i } :: scoredHitsAux qts (i + 1) ds
    else scoredHitsAux qts (i + 1) ds

/-- The result order delivered by the modelled library: descending score,
ties broken by ascending index position (stable reference order). -/
def hitLE (a b : Hit) : Prop :=
  b.score < a.score ∨ (a.score = b.score ∧ a.pos ≤ b.pos)

instance : DecidableRel hitLE := fun a b =>
  decidable_of_iff (b.score < a.score ∨ (a.score = b.score ∧ a.pos ≤ b.pos)) Iff.rfl

instance : IsTotal Hit hitLE := by
  constructor
  intro a b
  rcases lt_trichotomy a.score b.score with h | h | h
  · exact Or.inr (Or.inl h)
  · rcases Nat.le_total a.pos b.pos with hp | hp
    · exact Or.inl (Or.inr ⟨h, hp⟩)
    · exact Or.inr (Or.inr ⟨h.symm, hp⟩)
  · exact Or.inl (Or.inl h)

instance : IsTrans Hit hitLE := by
  constructor
  intro a b c hab hbc
  rcases hab with hab | ⟨hab1, hab2⟩
  · rcases hbc with hbc | ⟨hbc1, hbc2⟩
    · exact Or.inl (lt_trans hbc hab)
    · exact Or.inl (hbc1 ▸ hab)
  · rcases hbc with hbc | ⟨hbc1, hbc2⟩
    · exact Or.inl (hab1 ▸ hbc)
    · exact Or.inr ⟨hab1.trans hbc1, hab2.trans hbc2⟩

/-- `this.index.search(query)` of the modelled library: score every indexed
document, keep positive scores, sort by descending score with ties in
stable reference order. -/
def lunrSearch (idx : LunrIndexData) (q : String) : List Hit :=
  List.insertionSort hitLE (scoredHitsAux (tokenize q) 0 idx)

/-- Building the index (the `lunr(function() {...})` block of `buildIndex`,
source lines 34-42): every document is added in corpus order. -/
def lunrBuild (docs : List DocEntry) : LunrIndexData :=
  docs.map fun d => { ref := d.path, titleToks := tokenize d.title, contentToks := tokenize d.content }

/-- The document references present in the index. -/
def idxRefs (idx : LunrIndexData) : List String :=
  idx.map IndexedDoc.ref

/-! ## The document store

`this.docStore` is a JavaScript object `Record<string, DocEntry>`, modelled
as an association list in property insertion order: assignment to an
existing key overwrites the value in place, a new key is appended. -/

/-- `store[d.path] = d` with JavaScript object semantics. -/
def storeInsert (st : List (String × DocEntry)) (d : DocEntry) : List (String × DocEntry) :=
  if st.any (fun p => p.1 = d.path) then
    st.map (fun p => if p.1 = d.path then (p.1, d) else p)
  else st ++ [(d.path, d)]

/-- `docs.forEach(doc => { this.docStore[doc.path] = doc })` (lines 45-48). -/
def buildStore (docs : List DocEntry) : List (String × DocEntry) :=
  docs.foldl storeInsert []

/-- `store[k]`, `none` standing for JavaScript `undefined`. -/
def storeLookup (st : List (String × DocEntry)) (k : String) : Option DocEntry :=
  (st.find? (fun p => p.1 = k)).map Prod.snd

/-! ## Engine state and persistence -/

/-- The mutable fields of `class SearchEngine`: `index` is `none` while the
field is still `undefined` (no generation yet). -/
structure EngineState where
  index : Option LunrIndexData
  docStore : List (String × DocEntry)
  indexPath : String
deriving DecidableEq

/-- The constructor (lines 16-18): only `indexPath` is set; `index` stays
undefined and `docStore` is the empty object. -/
def mkEngine (docsDir : String) : EngineState :=
  { index := none, docStore := [], indexPath := docsDir ++ "/search-index.json" }

/-- The persisted snapshot written by `saveIndex` (lines 100-106):
`{ version, index: this.index.toJSON(), docStore: this.docStore }`.  The
index blob is kept structured; the serialize/deserialize pair of the
external library is modelled as the identity, per its round-trip contract. -/
structure Snapshot where
  version : String
  index : LunrIndexData
  docStore : List (String × DocEntry)
deriving DecidableEq

/-- `saveIndex` (lines 100-106).  `now` stands for the timestamp
`new Date().toISOString()`.  When `this.index` is still undefined the
method would crash on `this.index.toJSON()`; this is the `none` case. -/
def saveIndex (st : EngineState) (now : String) : Option Snapshot :=
  st.index.map fun idx => { version := now, index := idx, docStore := st.docStore }

/-- `loadIndex` (lines 26-30) applied to an already parsed snapshot:
`this.index = lunr.Index.load(indexData.index); this.docStore = indexData.docStore`. -/
def loadIndex (snap : Snapshot) (st : EngineState) : EngineState :=
  { st with index := some snap.index, docStore := snap.docStore }

/-- What the engine finds on disk at startup. `corrupt` covers every file
that exists but cannot be turned into a snapshot: `fs.readJson` or
`lunr.Index.load` throws while parsing it. -/
inductive SnapshotFile where
  | absent
  | corrupt
  | valid (snap : Snapshot)

inductive LoadError where
  | parseError
deriving DecidableEq

/-- `initialize` (lines 20-24): if the file exists, `loadIndex` runs with
no surrounding try/catch, so a parse failure propagates to the caller
(the top-level `await searchEngine.initialize()` of src/index.ts). -/
def initEngine (f : SnapshotFile) (st : EngineState) : Except LoadError EngineState :=
  match f with
  | .absent => .ok st
  | .corrupt => .error .parseError
  | .valid snap => .ok (loadIndex snap st)

/-- `buildIndex` (lines 32-51) applied to an already loaded corpus (the
filesystem collaborators `collectDocs` / `loadDocsFromEntries` supply it):
a brand-new index and store replace the previous generation, then
`saveIndex` writes the snapshot. -/
def buildIndex (docs : List DocEntry) (st : EngineState) (now : String) :
    EngineState × Option Snapshot :=
  let st1 : EngineState :=
    { st with index := some (lunrBuild docs), docStore := buildStore docs }
  (st1, saveIndex st1 now)

/-! ## The excerpt generator

`createExcerpt` (lines 137-151).  The source locates the first occurrence
with `content.toLowerCase().indexOf(query.toLowerCase())`, slices a window
of 400 characters on each side, and — only when a match was found — runs
`excerpt.replace(new RegExp(query, 'gi'), match => ` `**match**` `)`.
The *raw* query is compiled as a regular expression, unescaped.  The model
therefore distinguishes two regimes:

* queries free of regex metacharacters: `new RegExp` compiles and the
  pattern denotes exactly the query as a case-insensitive literal; the
  replacement is computed (`emphasize`);
* queries containing a metacharacter: the behaviour is decided by the
  JavaScript regex engine — a `SyntaxError` throw for an ill-formed
  pattern such as `"fox("`, engine-specific matching for a well-formed one
  such as `"a.c"` (whose `.` also matches `"abc"`).  The model does not
  implement that engine; `createExcerpt` returns the distinguished marker
  `SearchError.regexDependent` there, and no theorem below asserts
  anything about the source's behaviour in this regime. -/

/-- `a` matches `b` case-insensitively as a prefix. -/
def isPrefixCI : List Char → List Char → Bool
  | [], _ => true
  | _ :: _, [] => false
  | a :: as, b :: bs => (a.toLower = b.toLower) && isPrefixCI as bs

theorem isPrefixCI_length {q s : List Char} (h : isPrefixCI q s = true) :
    q.length ≤ s.length := by
  induction q generalizing s with
  | nil => simp
  | cons a as ih =>
    cases s with
    | nil => simp [isPrefixCI] at h
    | cons b bs =>
      simp only [isPrefixCI, Bool.and_eq_true] at h
      simpa using ih h.2

theorem isPrefixCI_nil {q : List Char} (hq : ¬q.isEmpty) : isPrefixCI q [] = false := by
  cases q with
  | nil => simp at hq
  | cons a as => rfl

/-- `content.toLowerCase().indexOf(query.toLowerCase())`, as an `Option`:
index of the first case-insensitive occurrence (`i` is the running
offset). -/
def firstOccurAux (q : List Char) : Nat → List Char → Option Nat
  | i, s =>
    if isPrefixCI q s then some i
    else
      match s with
      | [] => none
      | _ :: t => firstOccurAux q (i + 1) t

/-- JavaScript `String.prototype.slice(a, b)` for `0 ≤ a ≤ b`. -/
def sliceL (s : List Char) (a b : Nat) : List Char :=
  (s.take b).drop a

/-- The window the source slices out of the content (lines 139-141):
`start = max(0, pos - 400)`, `end = min(len, pos + qlen + 400)`; when no
occurrence exists `pos = -1`, so the window is `[0, min(len, qlen + 399))`. -/
def excerptWindow (c q : List Char) : List Char :=
  match firstOccurAux q 0 c with
  | some p => sliceL c (p - 400) (min c.length (p + q.length + 400))
  | none => sliceL c 0 (min c.length (q.length + 399))

/-- The global replacement
`excerpt.replace(new RegExp(query, 'gi'), m => ` `**m**` `)` on the
regex-literal domain, where the compiled pattern denotes the query itself
as a case-insensitive literal (`createExcerpt` guards this domain and
never calls `emphasize` outside it): leftmost matches, scanning resumes
after each match (so overlapping occurrences are skipped), each match is
re-emitted in its original case between `**` markers.  An empty pattern
matches at every position, including the end of the string, mirroring the
empty-regex behaviour of JavaScript. -/
def emphasizeAux (q : List Char) : Nat → List Char → List Char
  | 0, s => s
  | fuel + 1, s =>
    if q.isEmpty then
      match s with
      | [] => ['*', '*', '*', '*']
      | c :: t => '*' :: '*' :: '*' :: '*' :: c :: emphasizeAux q fuel t
    else if isPrefixCI q s then
      '*' :: '*' :: (s.take q.length ++ '*' :: '*' :: emphasizeAux q fuel (s.drop q.length))
    else
      match s with
      | [] => []
      | c :: t => c :: emphasizeAux q fuel t

/-- Entry point of the replacement: the fuel `s.length + 1` dominates the
scan (every step consumes at least one character), so the fuel never runs
out. -/
def emphasize (q s : List Char) : List Char :=
  emphasizeAux q (s.length + 1) s

/-- The failure modes of a `search` call, plus the marker for the
regex-engine-dependent regime of `createExcerpt`:

* `notInitialized`: the explicit `throw new Error('Index not initialized')`
  (line 110);
* `docMissing`: the unchecked `this.docStore[result.ref]` dereference of a
  missing entry (lines 118, 127), a `TypeError` in the source;
* `regexDependent`: a query containing a regex metacharacter reached
  `new RegExp(query, 'gi')` (line 145).  The source then either throws a
  `SyntaxError` (ill-formed pattern) or matches by the engine's regex
  semantics (well-formed pattern); neither is modelled, so the embedding
  stops with this marker rather than claiming an output. -/
inductive SearchError where
  | notInitialized
  | docMissing (ref : String)
  | regexDependent (query : String)
deriving DecidableEq

/-- The characters that are (or can become) syntax inside a JavaScript
regular expression pattern.  A pattern containing none of them always
compiles, and with the `i` flag denotes exactly case-insensitive literal
matching of itself. -/
def regexMeta (c : Char) : Bool :=
  c = '\\' || c = '^' || c = '$' || c = '.' || c = '|' || c = '?' || c = '*' ||
  c = '+' || c = '(' || c = ')' || c = '[' || c = ']' || c = '\x7b' || c = '\x7d'

/-- The query's raw text is a regex-literal pattern: `new RegExp(query, 'gi')`
compiles and matches precisely the query, case-insensitively. -/
def regexLiteral (q : List Char) : Bool :=
  q.all (fun c => !(regexMeta c))

/-- `createExcerpt` (lines 137-151): slice the window; the regex is built
and the replacement run only when a literal occurrence was found
(`if (pos >= 0)`).  On the regex-literal domain the replacement is
`emphasize`; otherwise the result depends on the JS regex engine and the
model stops with the `regexDependent` marker (see `SearchError`). -/
def createExcerpt (content query : String) : Except SearchError String :=
  match firstOccurAux query.data 0 content.data with
  | none => .ok (String.mk (excerptWindow content.data query.data))
  | some _ =>
    if regexLiteral query.data then
      .ok (String.mk (emphasize query.data (excerptWindow content.data query.data)))
    else
      .error (.regexDependent query)

/-! ## Search -/

/-- The value returned for one hit (lines 128-133). -/
structure SearchResult where
  path : String
  score : ℚ
  title : String
  excerpt : String
deriving DecidableEq

instance {e a : Type} [DecidableEq e] [DecidableEq a] : DecidableEq (Except e a) := fun x y =>
  match x, y with
  | .ok u, .ok v => decidable_of_iff (u = v) (by simp)
  | .error u, .error v => decidable_of_iff (u = v) (by simp)
  | .ok _, .error _ => isFalse (by simp)
  | .error _, .ok _ => isFalse (by simp)

/-- JavaScript `s.startsWith(pre)`. -/
def startsWith (s pre : String) : Bool :=
  pre.data.isPrefixOf s.data

/-- The category filter (lines 116-121):
`results.filter(r => this.docStore[r.ref].title.startsWith(docName + "/"))`.
The lookup is dereferenced without a check, so a missing entry crashes the
whole call — even for a hit the filter would have dropped. -/
def filterByCat (store : List (String × DocEntry)) (cat : String) :
    List Hit → Except SearchError (List Hit)
  | [] => .ok []
  | h :: t =>
    match storeLookup store h.ref with
    | none => .error (.docMissing h.ref)
    | some d =>
      match filterByCat store cat t with
      | .error e => .error e
      | .ok t2 => .ok (if startsWith d.title (cat ++ "/") then h :: t2 else t2)

/-- The final mapping (lines 126-134): each surviving hit is resolved
through the doc store (again an unchecked dereference) and decorated with
an excerpt.  The hits are processed left to right, and for each hit the
store dereference precedes the excerpt (the object literal reads
`doc.path` first), so errors propagate in source order. -/
def resolveHits (store : List (String × DocEntry)) (q : String) :
    List Hit → Except SearchError (List SearchResult)
  | [] => .ok []
  | h :: t =>
    match storeLookup store h.ref with
    | none => .error (.docMissing h.ref)
    | some d =>
      match createExcerpt d.content q with
      | .error e => .error e
      | .ok ex =>
        match resolveHits store q t with
        | .error e => .error e
        | .ok t2 =>
          .ok ({ path := d.path, score := h.score, title := d.title,
                 excerpt := ex } :: t2)

/-- The filter pipeline of `search` before pagination (lines 113-124): the
raw ranked hits, then the optional category filter, then the
`score >= minScore` filter.  Its `.ok` value is the full filtered ranked
list that pagination windows into. -/
def filteredHits (idx : LunrIndexData) (store : List (String × DocEntry))
    (query : String) (docName : Option String) (minScore : ℚ) :
    Except SearchError (List Hit) :=
  match docName with
  | none => .ok ((lunrSearch idx query).filter (fun r => minScore ≤ r.score))
  | some d =>
    match filterByCat store d (lunrSearch idx query) with
    | .error e => .error e
    | .ok l => .ok (l.filter (fun r => minScore ≤ r.score))

/-- `search(query, maxResults, docName, minScore, offset)` (lines 108-135).
`results.slice(offset, offset + maxResults)` is drop-then-take. -/
def search (st : EngineState) (query : String) (maxResults : Nat)
    (docName : Option String) (minScore : ℚ) (offset : Nat) :
    Except SearchError (List SearchResult) :=
  match st.index with
  | none => .error .notInitialized
  | some idx =>
    match filteredHits idx st.docStore query docName minScore with
    | .error e => .error e
    | .ok hits => resolveHits st.docStore query ((hits.drop offset).take maxResults)

/-- `search` without the pagination step: resolves the whole filtered
ranked list.  Used to state the pagination-consistency claim. -/
def fullResults (st : EngineState) (query : String)
    (docName : Option String) (minScore : ℚ) :
    Except SearchError (List SearchResult) :=
  match st.index with
  | none => .error .notInitialized
  | some idx =>
    match filteredHits idx st.docStore query docName minScore with
    | .error e => .error e
    | .ok hits => resolveHits st.docStore query hits

/-- The state-passing reading of the `search` method: the method body
(lines 108-135) contains no assignment to any field of `this`, so the
translation returns the state unchanged alongside the result. -/
def searchST (st : EngineState) (query : String) (maxResults : Nat)
    (docName : Option String) (minScore : ℚ) (offset : Nat) :
    Except SearchError (List SearchResult) × EngineState :=
  (search st query maxResults docName minScore offset, st)

/-- The cross-generation invariant of the specification (§3): every docId
in the inverted index resolves in the doc store of the same generation. -/
def invariantHolds (idx : LunrIndexData) (store : List (String × DocEntry)) : Prop :=
  ∀ r ∈ idxRefs idx, (storeLookup store r).isSome = true

instance (idx : LunrIndexData) (store : List (String × DocEntry)) :
    Decidable (invariantHolds idx store) :=
  inferInstanceAs (Decidable (∀ r ∈ idxRefs idx, (storeLookup store r).isSome = true))

/-- The result list of a call, `[]` for a crashed call.  Used to state the
pagination claim; the accompanying theorem separately proves that none of
the joined calls crashes. -/
def okList (e : Except SearchError (List SearchResult)) : List SearchResult :=
  match e with
  | .ok rs => rs
  | .error _ => []

/-- A well-formed, parseable snapshot whose index references document `"a"`
while its doc store is empty.  `loadIndex` accepts it unchanged — nothing
cross-checks the two halves — after which `search` dereferences the missing
store entry. -/
def badSnap : Snapshot :=
  { version := "2024-01-01T00:00:00.000Z",
    index := [{ ref := "a", titleToks := [], contentToks := [['f', 'o', 'x']] }],
    docStore := [] }

/-- A one-document corpus, used by several concrete witnesses below. -/
def docsW : List DocEntry :=
  [{ path := "a", title := "t", content := "fox" }]

/-- The snapshot `saveIndex` writes after building `docsW`. -/
def snapW : Snapshot :=
  { version := "v", index := lunrBuild docsW, docStore := buildStore docsW }

/-! ## Formal statements of two spec claims, as written

These two definitions follow the wording of the specification (not the
source); the theorems below compare them with the behaviour of the
embedded code. -/

/-- Claim C1 as stated: whenever the snapshot file is absent *or fails to
parse*, startup succeeds, the engine is in the empty generation, and
search fails with `NotInitialized` until a build occurs. -/
def claim1 : Prop :=
  ∀ f : SnapshotFile, (f = SnapshotFile.absent ∨ f = SnapshotFile.corrupt) →
    ∀ dir : String, ∃ st : EngineState,
      initEngine f (mkEngine dir) = .ok st ∧ st.index = none ∧
      ∀ (q : String) (k : Nat) (dn : Option String) (ms : ℚ) (off : Nat),
        search st q k dn ms off = .error .notInitialized

/-- `q` occurs case-insensitively in `w` starting at position `i`. -/
abbrev occursCIAt (w q : List Char) (i : Nat) : Prop :=
  isPrefixCI q (w.drop i) = true

/-- Inverse parse of the emphasis markers: scanning left to right, each
`**` toggles the emphasis state, every other character is emitted together
with the current state.  Applied to an excerpt it recovers the window text
(first components) and which window positions are emphasised (second
components). -/
def deEmph : Bool → List Char → List (Char × Bool)
  | b, '*' :: '*' :: rest => deEmph (!b) rest
  | b, c :: rest => (c, b) :: deEmph b rest
  | _, [] => []

/-- The computed excerpt, the empty string for the regex-dependent marker. -/
def excerptOr : Except SearchError String → String
  | .ok ex => ex
  | .error _ => ""

/-- Did the call produce an excerpt? -/
def isOkE : Except SearchError String → Bool
  | .ok _ => true
  | .error _ => false

/-- Claim C3 as stated: an excerpt is produced, it is the window (markers
removed restore it), and *every* case-insensitive literal occurrence of
the query inside the window is wrapped, i.e. all its character positions
are emphasised. -/
def claim3 (content query : String) : Prop :=
  isOkE (createExcerpt content query) = true ∧
  ((deEmph false (excerptOr (createExcerpt content query)).data).map Prod.fst
      = excerptWindow content.data query.data) ∧
  ∀ i < (excerptWindow content.data query.data).length + 1,
    occursCIAt (excerptWindow content.data query.data) query.data i →
      ∀ j < query.data.length,
        ((deEmph false (excerptOr (createExcerpt content query)).data).map Prod.snd).getD
          (i + j) false = true

/-! ## Greedy matching: what the global regex replace actually wraps -/

/-- Start positions of the matches selected by a global regex scan for the
literal pattern `q` over `s`: leftmost first, each further match starting
only after the end of the previous one.  An empty pattern matches at every
position including the end, as in JavaScript.  Positions are relative to
`s`. -/
def gposAux (q : List Char) : Nat → List Char → List Nat
  | 0, _ => []
  | fuel + 1, s =>
    if q.isEmpty then List.range (s.length + 1)
    else if isPrefixCI q s then 0 :: (gposAux q fuel (s.drop q.length)).map (· + q.length)
    else
      match s with
      | [] => []
      | _ :: t => (gposAux q fuel t).map (· + 1)

/-- Start positions (relative to `s`) with the canonical fuel. -/
def gpos (q s : List Char) : List Nat :=
  gposAux q (s.length + 1) s

/-- Render `s` with `**` markers around the length-`q.length` segments
starting at the given (relative, left-to-right, non-overlapping)
positions. -/
def wposAux (q : List Char) : Nat → List Char → List Nat → List Char
  | 0, s, _ => s
  | _ + 1, s, [] => s
  | fuel + 1, s, g :: gs =>
    s.take g ++ '*' :: '*' :: ((s.drop g).take q.length ++ '*' :: '*' ::
      wposAux q fuel (s.drop (g + q.length)) (gs.map (· - (g + q.length))))

/-- Entry point with the canonical fuel (one unit per position). -/
def wpos (q : List Char) (s : List Char) (g : List Nat) : List Char :=
  wposAux q g.length s g

/-- The amended excerpt claim (asserted below for queries on the
regex-literal domain, where the source's unescaped regex means literal
matching): the excerpt is the clamped window, verbatim when no occurrence
exists in the content; with at least one occurrence it is the window with
markers wrapped around the greedy left-to-right non-overlapping matches;
every position in `gpos` is a case-insensitive occurrence, and every
occurrence fitting inside the window either is such a match or starts
strictly inside an earlier one. -/
def claim3Amended (content query : String) : Prop :=
  (firstOccurAux query.data 0 content.data = none →
    createExcerpt content query =
      .ok (String.mk (excerptWindow content.data query.data))) ∧
  (∀ p : Nat, firstOccurAux query.data 0 content.data = some p →
    createExcerpt content query =
      .ok (String.mk (wpos query.data (excerptWindow content.data query.data)
        (gpos query.data (excerptWindow content.data query.data)))) ∧
    (∀ g ∈ gpos query.data (excerptWindow content.data query.data),
      occursCIAt (excerptWindow content.data query.data) query.data g) ∧
    (∀ i : Nat, i + query.data.length ≤ (excerptWindow content.data query.data).length →
      occursCIAt (excerptWindow content.data query.data) query.data i →
      i ∈ gpos query.data (excerptWindow content.data query.data) ∨
      ∃ g ∈ gpos query.data (excerptWindow content.data query.data),
        g < i ∧ i < g + query.data.length))

/-! ## Basic lemmas about the pipeline stages -/

theorem filterByCat_error_shape {store : List (String × DocEntry)} {cat : String}
    {l : List Hit} {e : SearchError} (h : filterByCat store cat l = .error e) :
    ∃ r, e = .docMissing r := by
  induction l generalizing e with
  | nil => simp [filterByCat] at h
  | cons x t ih =>
    rw [filterByCat] at h
    cases hl : storeLookup store x.ref with
    | none => rw [hl] at h; exact ⟨x.ref, ((Except.error.injEq _ _).mp h).symm⟩
    | some d =>
      rw [hl] at h
      cases hrec : filterByCat store cat t with
      | error e2 =>
        rw [hrec] at h
        have he : e2 = e := (Except.error.injEq _ _).mp h
        exact he ▸ ih hrec
      | ok t2 => rw [hrec] at h; simp at h

theorem filterByCat_sublist {store : List (String × DocEntry)} {cat : String}
    {l l2 : List Hit} (h : filterByCat store cat l = .ok l2) :
    List.Sublist l2 l := by
  induction l generalizing l2 with
  | nil => simp [filterByCat] at h; subst h; simp
  | cons x t ih =>
    rw [filterByCat] at h
    cases hl : storeLookup store x.ref with
    | none => rw [hl] at h; simp at h
    | some d =>
      rw [hl] at h
      cases hrec : filterByCat store cat t with
      | error e2 => rw [hrec] at h; simp at h
      | ok t2 =>
        rw [hrec] at h
        simp only [Except.ok.injEq] at h
        subst h
        by_cases hpred : startsWith d.title (cat ++ "/") = true
        · simp only [hpred, if_true]
          exact (ih hrec).cons₂ x
        · simp only [hpred, if_false]
          exact (ih hrec).cons x

theorem filterByCat_mem {store : List (String × DocEntry)} {cat : String}
    {l l2 : List Hit} (h : filterByCat store cat l = .ok l2) :
    ∀ x ∈ l2, ∃ d, storeLookup store x.ref = some d ∧ startsWith d.title (cat ++ "/") = true := by
  induction l generalizing l2 with
  | nil => simp [filterByCat] at h; subst h; simp
  | cons x t ih =>
    rw [filterByCat] at h
    cases hl : storeLookup store x.ref with
    | none => rw [hl] at h; simp at h
    | some d =>
      rw [hl] at h
      cases hrec : filterByCat store cat t with
      | error e2 => rw [hrec] at h; simp at h
      | ok t2 =>
        rw [hrec] at h
        simp only [Except.ok.injEq] at h
        subst h
        intro y hy
        by_cases hpred : startsWith d.title (cat ++ "/") = true
        · simp only [hpred, if_true] at hy
          rcases List.mem_cons.mp hy with rfl | hy2
          · exact ⟨d, hl, hpred⟩
          · exact ih hrec y hy2
        · simp only [hpred, if_false] at hy
          exact ih hrec y hy

theorem filterByCat_ok_of (store : List (String × DocEntry)) (cat : String)
    {l : List Hit} (h : ∀ x ∈ l, (storeLookup store x.ref).isSome = true) :
    ∃ l2, filterByCat store cat l = .ok l2 := by
  induction l with
  | nil => exact ⟨[], rfl⟩
  | cons x t ih =>
    have hx := h x (by simp)
    rcases Option.isSome_iff_exists.mp hx with ⟨d, hd⟩
    rcases ih (fun y hy => h y (List.mem_cons_of_mem x hy)) with ⟨t2, ht2⟩
    refine ⟨if startsWith d.title (cat ++ "/") then x :: t2 else t2, ?_⟩
    rw [filterByCat, hd, ht2]

theorem createExcerpt_error_shape {content query : String} {e : SearchError}
    (h : createExcerpt content query = .error e) : e = .regexDependent query := by
  cases hf : firstOccurAux query.data 0 content.data with
  | none => simp [createExcerpt, hf] at h
  | some p =>
    simp only [createExcerpt, hf] at h
    by_cases hlit : regexLiteral query.data = true
    · rw [if_pos hlit] at h
      simp at h
    · rw [if_neg hlit] at h
      exact ((Except.error.injEq _ _).mp h).symm

theorem createExcerpt_ok_of_literal {query : String}
    (hlit : regexLiteral query.data = true) (content : String) :
    ∃ ex, createExcerpt content query = .ok ex := by
  cases hf : firstOccurAux query.data 0 content.data with
  | none =>
    exact ⟨String.mk (excerptWindow content.data query.data),
      by simp [createExcerpt, hf]⟩
  | some p =>
    exact ⟨String.mk (emphasize query.data (excerptWindow content.data query.data)),
      by simp [createExcerpt, hf, hlit]⟩

theorem resolveHits_error_shape {store : List (String × DocEntry)} {q : String}
    {l : List Hit} {e : SearchError} (h : resolveHits store q l = .error e) :
    e ≠ SearchError.notInitialized := by
  induction l generalizing e with
  | nil => simp [resolveHits] at h
  | cons x t ih =>
    rw [resolveHits] at h
    cases hl : storeLookup store x.ref with
    | none =>
      rw [hl] at h
      have he : e = .docMissing x.ref := ((Except.error.injEq _ _).mp h).symm
      simp [he]
    | some d =>
      rw [hl] at h
      cases hex : createExcerpt d.content q with
      | error e2 =>
        simp only [hex] at h
        have he : e2 = e := (Except.error.injEq _ _).mp h
        have hshape := createExcerpt_error_shape hex
        rw [he] at hshape
        simp [hshape]
      | ok ex =>
        simp only [hex] at h
        cases hrec : resolveHits store q t with
        | error e2 =>
          simp only [hrec] at h
          have he : e2 = e := (Except.error.injEq _ _).mp h
          exact he ▸ ih hrec
        | ok t2 => simp [hrec] at h

theorem resolveHits_ok_mem {store : List (String × DocEntry)} {q : String}
    {l : List Hit} {rs : List SearchResult} (h : resolveHits store q l = .ok rs) :
    ∀ x ∈ l, ∃ d, storeLookup store x.ref = some d ∧
      ∃ ex, createExcerpt d.content q = .ok ex := by
  induction l generalizing rs with
  | nil => simp
  | cons x t ih =>
    rw [resolveHits] at h
    cases hl : storeLookup store x.ref with
    | none => rw [hl] at h; simp at h
    | some d =>
      rw [hl] at h
      cases hex : createExcerpt d.content q with
      | error e2 => simp [hex] at h
      | ok ex =>
        simp only [hex] at h
        cases hrec : resolveHits store q t with
        | error e2 => simp [hrec] at h
        | ok t2 =>
          intro y hy
          rcases List.mem_cons.mp hy with rfl | hy2
          · exact ⟨d, hl, ex, hex⟩
          · exact ih hrec y hy2

theorem resolveHits_ok_of (store : List (String × DocEntry)) (q : String)
    {l : List Hit}
    (h : ∀ x ∈ l, ∃ d, storeLookup store x.ref = some d ∧
      ∃ ex, createExcerpt d.content q = .ok ex) :
    ∃ rs, resolveHits store q l = .ok rs := by
  induction l with
  | nil => exact ⟨[], rfl⟩
  | cons x t ih =>
    rcases h x (by simp) with ⟨d, hd, ex, hex⟩
    rcases ih (fun y hy => h y (List.mem_cons_of_mem x hy)) with ⟨t2, ht2⟩
    refine ⟨{ path := d.path, score := x.score, title := d.title, excerpt := ex } :: t2, ?_⟩
    rw [resolveHits, hd]
    simp only [hex, ht2]

theorem resolveHits_mem {store : List (String × DocEntry)} {q : String}
    {l : List Hit} {rs : List SearchResult} (h : resolveHits store q l = .ok rs) :
    ∀ r ∈ rs, ∃ x ∈ l, ∃ d, storeLookup store x.ref = some d ∧
      r.path = d.path ∧ r.score = x.score ∧ r.title = d.title ∧
      createExcerpt d.content q = .ok r.excerpt := by
  induction l generalizing rs with
  | nil => simp [resolveHits] at h; subst h; simp
  | cons x t ih =>
    rw [resolveHits] at h
    cases hl : storeLookup store x.ref with
    | none => rw [hl] at h; simp at h
    | some d =>
      rw [hl] at h
      cases hex : createExcerpt d.content q with
      | error e2 => simp [hex] at h
      | ok ex =>
        simp only [hex] at h
        cases hrec : resolveHits store q t with
        | error e2 => simp [hrec] at h
        | ok t2 =>
          simp only [hrec, Except.ok.injEq] at h
          subst h
          intro r hr
          rcases List.mem_cons.mp hr with rfl | hr2
          · exact ⟨x, by simp, d, hl, rfl, rfl, rfl, hex⟩
          · rcases ih hrec r hr2 with ⟨y, hy, d2, hd2⟩
            exact ⟨y, List.mem_cons_of_mem x hy, d2, hd2⟩

theorem resolveHits_scores {store : List (String × DocEntry)} {q : String}
    {l : List Hit} {rs : List SearchResult} (h : resolveHits store q l = .ok rs) :
    rs.map SearchResult.score = l.map Hit.score := by
  induction l generalizing rs with
  | nil => simp [resolveHits] at h; subst h; simp
  | cons x t ih =>
    rw [resolveHits] at h
    cases hl : storeLookup store x.ref with
    | none => rw [hl] at h; simp at h
    | some d =>
      rw [hl] at h
      cases hex : createExcerpt d.content q with
      | error e2 => simp [hex] at h
      | ok ex =>
        simp only [hex] at h
        cases hrec : resolveHits store q t with
        | error e2 => simp [hrec] at h
        | ok t2 =>
          simp only [hrec, Except.ok.injEq] at h
          subst h
          simp [ih hrec]

theorem resolveHits_length {store : List (String × DocEntry)} {q : String}
    {l : List Hit} {rs : List SearchResult} (h : resolveHits store q l = .ok rs) :
    rs.length = l.length := by
  have := congrArg List.length (resolveHits_scores h)
  simpa using this

theorem resolveHits_append {store : List (String × DocEntry)} {q : String}
    {a b : List Hit} {ra rb : List SearchResult}
    (ha : resolveHits store q a = .ok ra) (hb : resolveHits store q b = .ok rb) :
    resolveHits store q (a ++ b) = .ok (ra ++ rb) := by
  induction a generalizing ra with
  | nil => simp [resolveHits] at ha; subst ha; simpa using hb
  | cons x t ih =>
    rw [resolveHits] at ha
    cases hl : storeLookup store x.ref with
    | none => rw [hl] at ha; simp at ha
    | some d =>
      rw [hl] at ha
      cases hex : createExcerpt d.content q with
      | error e2 => simp [hex] at ha
      | ok ex =>
        simp only [hex] at ha
        cases hrec : resolveHits store q t with
        | error e2 => simp [hrec] at ha
        | ok t2 =>
          simp only [hrec, Except.ok.injEq] at ha
          subst ha
          rw [List.cons_append, resolveHits, hl]
          simp only [hex, ih hrec]
          simp

theorem filteredHits_error_shape {idx : LunrIndexData} {store : List (String × DocEntry)}
    {q : String} {dn : Option String} {ms : ℚ} {e : SearchError}
    (h : filteredHits idx store q dn ms = .error e) : ∃ r, e = .docMissing r := by
  cases dn with
  | none => simp [filteredHits] at h
  | some d =>
    rw [filteredHits] at h
    cases hf : filterByCat store d (lunrSearch idx q) with
    | error e2 => rw [hf] at h; exact (Except.error.injEq _ _).mp h ▸ filterByCat_error_shape hf
    | ok l => rw [hf] at h; simp at h

theorem filteredHits_sublist {idx : LunrIndexData} {store : List (String × DocEntry)}
    {q : String} {dn : Option String} {ms : ℚ} {hits : List Hit}
    (h : filteredHits idx store q dn ms = .ok hits) :
    List.Sublist hits (lunrSearch idx q) := by
  cases dn with
  | none =>
    simp only [filteredHits, Except.ok.injEq] at h
    exact h ▸ List.filter_sublist _
  | some d =>
    rw [filteredHits] at h
    cases hf : filterByCat store d (lunrSearch idx q) with
    | error e2 => rw [hf] at h; simp at h
    | ok l =>
      rw [hf] at h
      simp only [Except.ok.injEq] at h
      exact h ▸ (List.filter_sublist l).trans (filterByCat_sublist hf)

/-! ## Store and index lemmas -/

theorem find_map_overwrite (d : DocEntry) (k : String) :
    ∀ st : List (String × DocEntry),
      (st.map (fun p => if p.1 = d.path then (p.1, d) else p)).find? (fun p => p.1 = k)
        = (st.find? (fun p => p.1 = k)).map (fun p => if p.1 = d.path then (p.1, d) else p) := by
  intro st
  induction st with
  | nil => simp
  | cons p t ih =>
    have hfst : (if p.1 = d.path then (p.1, d) else p).1 = p.1 := by
      by_cases hpd : p.1 = d.path <;> simp [hpd]
    rw [List.map_cons]
    by_cases hpk : p.1 = k
    · rw [List.find?_cons_of_pos _ (by simp only [hfst]; simpa using hpk),
          List.find?_cons_of_pos _ (by simpa using hpk)]
      simp
    · rw [List.find?_cons_of_neg _ (by simp only [hfst]; simpa using hpk),
          List.find?_cons_of_neg _ (by simpa using hpk), ih]

theorem storeLookup_storeInsert (st : List (String × DocEntry)) (d : DocEntry) (k : String) :
    storeLookup (storeInsert st d) k = if k = d.path then some d else storeLookup st k := by
  unfold storeInsert storeLookup
  by_cases hany : st.any (fun p => p.1 = d.path)
  · rw [if_pos hany, find_map_overwrite]
    cases hf : st.find? (fun p => p.1 = k) with
    | none =>
      by_cases hk : k = d.path
      · exfalso
        rcases List.any_eq_true.mp hany with ⟨p, hp, hpd⟩
        have hs : (st.find? (fun p => p.1 = k)).isSome = true := by
          apply List.find?_isSome.mpr
          exact ⟨p, hp, by simp only [hk]; exact hpd⟩
        rw [hf] at hs
        simp at hs
      · simp [hk]
    | some p =>
      have hpk : p.1 = k := by simpa using List.find?_some hf
      by_cases hk : k = d.path
      · have hpd : p.1 = d.path := hpk.trans hk
        simp [hpd, hk]
      · have hpd : ¬ p.1 = d.path := by rw [hpk]; exact hk
        simp [hpd, hk]
  · rw [if_neg hany, List.find?_append]
    cases hf : st.find? (fun p => p.1 = k) with
    | none =>
      by_cases hk : k = d.path
      · simp [List.find?, hk]
      · have : ¬ d.path = k := fun hdk => hk hdk.symm
        simp [List.find?, hk, this]
    | some p =>
      have hpk : p.1 = k := by simpa using List.find?_some hf
      by_cases hk : k = d.path
      · exfalso
        apply hany
        apply List.any_eq_true.mpr
        exact ⟨p, List.mem_of_find?_eq_some hf, by simp [hpk, hk]⟩
      · simp [hk]

theorem lookup_foldl_isSome (docs : List DocEntry) (k : String) :
    ∀ st : List (String × DocEntry),
      (storeLookup (docs.foldl storeInsert st) k).isSome = true ↔
        k ∈ docs.map DocEntry.path ∨ (storeLookup st k).isSome = true := by
  induction docs with
  | nil => intro st; simp
  | cons d ds ih =>
    intro st
    rw [List.foldl_cons, ih (storeInsert st d), storeLookup_storeInsert]
    by_cases hk : k = d.path
    · simp [hk]
    · simp [hk]

theorem lookup_buildStore_isSome (docs : List DocEntry) (k : String) :
    (storeLookup (buildStore docs) k).isSome = true ↔ k ∈ docs.map DocEntry.path := by
  unfold buildStore
  rw [lookup_foldl_isSome]
  simp [storeLookup]

theorem idxRefs_lunrBuild (docs : List DocEntry) :
    idxRefs (lunrBuild docs) = docs.map DocEntry.path := by
  simp [idxRefs, lunrBuild]

/-- After `buildIndex`, every index reference resolves in the doc store:
both sides are built from the same corpus. -/
theorem invariant_build (docs : List DocEntry) :
    invariantHolds (lunrBuild docs) (buildStore docs) := by
  intro r hr
  rw [idxRefs_lunrBuild] at hr
  exact (lookup_buildStore_isSome docs r).mpr hr

theorem scoredHitsAux_ref_mem (qts : List (List Char)) :
    ∀ (i : Nat) (ds : LunrIndexData) (h : Hit),
      h ∈ scoredHitsAux qts i ds → h.ref ∈ idxRefs ds := by
  intro i ds
  induction ds generalizing i with
  | nil => simp [scoredHitsAux]
  | cons d rest ih =>
    intro h hh
    rw [scoredHitsAux] at hh
    by_cases hs : 0 < docScore qts d
    · rw [if_pos hs] at hh
      rcases List.mem_cons.mp hh with rfl | hh2
      · simp [idxRefs]
      · exact List.mem_cons_of_mem _ (ih (i + 1) h hh2)
    · rw [if_neg hs] at hh
      exact List.mem_cons_of_mem _ (ih (i + 1) h hh)

theorem lunrSearch_ref_mem {idx : LunrIndexData} {q : String} {h : Hit}
    (hh : h ∈ lunrSearch idx q) : h.ref ∈ idxRefs idx :=
  scoredHitsAux_ref_mem (tokenize q) 0 idx h
    ((List.perm_insertionSort hitLE _).mem_iff.mp hh)

theorem lunrSearch_pairwise (idx : LunrIndexData) (q : String) :
    (lunrSearch idx q).Pairwise hitLE :=
  List.sorted_insertionSort hitLE _

/-- `search` reads only the `index` and `docStore` fields of the state. -/
theorem search_eq_of_fields {st st2 : EngineState} (h1 : st.index = st2.index)
    (h2 : st.docStore = st2.docStore) (q : String) (k : Nat) (dn : Option String)
    (ms : ℚ) (off : Nat) : search st q k dn ms off = search st2 q k dn ms off := by
  cases st with
  | mk i s p =>
    cases st2 with
    | mk i2 s2 p2 =>
      simp only at h1 h2
      subst h1
      subst h2
      rfl

/-- If the generation satisfies the index/docStore invariant, every store
lookup in the search pipeline succeeds; if additionally the query is on the
regex-literal domain, every excerpt is computed, so `search` returns
normally. -/
theorem search_ok_of_invariant {st : EngineState} {idx : LunrIndexData}
    (hidx : st.index = some idx) (hinv : invariantHolds idx st.docStore)
    (q : String) (hlit : regexLiteral q.data = true)
    (k : Nat) (dn : Option String) (ms : ℚ) (off : Nat) :
    ∃ rs, search st q k dn ms off = .ok rs := by
  have hmem : ∀ x ∈ lunrSearch idx q, (storeLookup st.docStore x.ref).isSome = true :=
    fun x hx => hinv x.ref (lunrSearch_ref_mem hx)
  have hfil : ∃ hits, filteredHits idx st.docStore q dn ms = .ok hits := by
    cases dn with
    | none => exact ⟨_, rfl⟩
    | some d =>
      rcases filterByCat_ok_of st.docStore d hmem with ⟨l2, hl2⟩
      exact ⟨_, by rw [filteredHits, hl2]⟩
  rcases hfil with ⟨hits, hf⟩
  have hchunkmem : ∀ x ∈ (hits.drop off).take k, ∃ d, storeLookup st.docStore x.ref = some d ∧
      ∃ ex, createExcerpt d.content q = .ok ex := by
    intro x hx
    have hx2 : x ∈ lunrSearch idx q :=
      (((List.take_sublist _ _).trans (List.drop_sublist _ _)).trans
        (filteredHits_sublist hf)).mem hx
    rcases Option.isSome_iff_exists.mp (hmem x hx2) with ⟨d, hd⟩
    exact ⟨d, hd, createExcerpt_ok_of_literal hlit d.content⟩
  rcases resolveHits_ok_of st.docStore q hchunkmem with ⟨rs, hrs⟩
  refine ⟨rs, ?_⟩
  simp only [search, hidx, hf]
  exact hrs

/-! ## Claim C1 -/

/-- C1, counterexample.  The claim also covers a snapshot that *fails to
parse*; but `initialize` wraps `loadIndex` in no try/catch (source lines
20-24), so the parse error propagates and startup fails instead of
falling back to the empty generation.  The claim as stated is false. -/
theorem c1_counterexample : ¬ claim1 := by
  intro h
  rcases h SnapshotFile.corrupt (Or.inr rfl) "docs" with ⟨st, hst, _⟩
  simp [initEngine] at hst

/-- C1, amended: if the snapshot file is *absent*, startup succeeds with
the empty generation and search fails with `NotInitialized` while no
generation exists; if the file exists but fails to parse, `initialize`
propagates the error, failing startup. -/
theorem c1_amended (dir : String) :
    initEngine SnapshotFile.absent (mkEngine dir) = .ok (mkEngine dir) ∧
    (mkEngine dir).index = none ∧
    (∀ st : EngineState, st.index = none →
      ∀ (q : String) (k : Nat) (dn : Option String) (ms : ℚ) (off : Nat),
        search st q k dn ms off = .error .notInitialized) ∧
    (∀ st : EngineState, initEngine SnapshotFile.corrupt st = .error .parseError) := by
  refine ⟨rfl, rfl, ?_, fun st => rfl⟩
  intro st h q k dn ms off
  simp only [search, h]

/-- C1, witness: the amended theorem at a fresh engine. -/
theorem c1_amended_witness :
    search (mkEngine "docs") "fox" 3 none (1 / 5) 0 = .error .notInitialized :=
  (c1_amended "docs").2.2.1 (mkEngine "docs") rfl "fox" 3 none (1 / 5) 0

/-! ## Claim C2 -/

/-- C2, counterexample.  A parseable snapshot whose index references a
document absent from its doc store loads successfully (nothing
cross-checks the generation halves), after which this search dereferences
the missing `docStore` entry: in the source, a thrown `TypeError` — not a
normal return.  So not every post-load generation makes `search` total. -/
theorem c2_counterexample :
    search (loadIndex badSnap (mkEngine "docs")) "fox" 3 none 0 0 =
      .error (.docMissing "a") := by
  decide

/-- C2, amended: after `buildIndex` the generation satisfies the
index/docStore invariant, and for every generation satisfying that
invariant, `search` returns normally — possibly with an empty list — for
every query whose raw text contains no regex metacharacter (the regime
where `new RegExp(query, 'gi')` of the source compiles and matches the
query literally) and for all other parameters.  A metacharacter query that
reaches the replace makes the source's behaviour regex-engine-dependent
(`SyntaxError` for ill-formed patterns), which the embedding surfaces as
the `regexDependent` marker instead of a normal return. -/
theorem c2_amended :
    (∀ (docs : List DocEntry) (st0 : EngineState) (now : String),
      ∃ idx, (buildIndex docs st0 now).1.index = some idx ∧
        invariantHolds idx (buildIndex docs st0 now).1.docStore) ∧
    (∀ (st : EngineState) (idx : LunrIndexData), st.index = some idx →
      invariantHolds idx st.docStore →
      ∀ (q : String), regexLiteral q.data = true →
      ∀ (k : Nat) (dn : Option String) (ms : ℚ) (off : Nat),
        ∃ rs, search st q k dn ms off = .ok rs) := by
  constructor
  · intro docs st0 now
    exact ⟨lunrBuild docs, rfl, invariant_build docs⟩
  · intro st idx hidx hinv q hlit k dn ms off
    exact search_ok_of_invariant hidx hinv q hlit k dn ms off

/-- C2, witness: a built engine answers an arbitrary metacharacter-free
query normally. -/
theorem c2_amended_witness :
    ∃ rs, search (buildIndex docsW (mkEngine "d") "v").1
      "zzz-nonexistent" 5 (some "g") (1 / 5) 0 = .ok rs :=
  c2_amended.2 (buildIndex docsW (mkEngine "d") "v").1
    (lunrBuild docsW) rfl (by decide) "zzz-nonexistent" (by decide)
    5 (some "g") (1 / 5) 0

/-! ## Claim C4 -/

/-- C4: building from a corpus, saving, and loading the saved snapshot
into any fresh engine yields a state whose searches coincide with the
builder's for every query and every parameter choice.  (The serialize /
deserialize pair of the index blob is the identity in this model, per the
library round-trip contract the specification assumes.) -/
theorem c4_roundTrip (docs : List DocEntry) (st0 st1 : EngineState) (now : String)
    (q : String) (k : Nat) (dn : Option String) (ms : ℚ) (off : Nat) :
    ∃ snap : Snapshot, (buildIndex docs st0 now).2 = some snap ∧
      search (loadIndex snap st1) q k dn ms off =
        search (buildIndex docs st0 now).1 q k dn ms off := by
  refine ⟨_, rfl, ?_⟩
  exact search_eq_of_fields rfl rfl q k dn ms off

/-! ## Claim C5 -/

/-- C5: with no generation, `search` fails with exactly the
not-initialized error (source line 109-111); once `this.index` is set, that
error can no longer occur (the remaining failure mode is the missing-doc
crash, which is a different error). -/
theorem c5_notInitialized (st : EngineState) (q : String) (k : Nat)
    (dn : Option String) (ms : ℚ) (off : Nat) :
    (st.index = none → search st q k dn ms off = .error .notInitialized) ∧
    (st.index ≠ none → search st q k dn ms off ≠ .error .notInitialized) := by
  constructor
  · intro h
    simp only [search, h]
  · intro h
    rcases Option.ne_none_iff_exists.mp h with ⟨idx, hidx⟩
    simp only [search, ← hidx]
    cases hf : filteredHits idx st.docStore q dn ms with
    | error e =>
      rcases filteredHits_error_shape hf with ⟨r, rfl⟩
      simp
    | ok hits =>
      cases hr : resolveHits st.docStore q ((hits.drop off).take k) with
      | error e =>
        have hne := resolveHits_error_shape hr
        simp only [hr, ne_eq, Except.error.injEq]
        exact hne
      | ok rs => simp [hr]

/-- C5, witness: both directions at concrete engines. -/
theorem c5_witness :
    search (mkEngine "d") "fox" 3 none 0 0 = .error .notInitialized ∧
    search (buildIndex docsW (mkEngine "d") "v").1 "fox" 3 none 0 0 ≠
      .error .notInitialized :=
  ⟨(c5_notInitialized (mkEngine "d") "fox" 3 none 0 0).1 rfl,
   (c5_notInitialized (buildIndex docsW (mkEngine "d") "v").1
      "fox" 3 none 0 0).2 (by decide)⟩

/-! ## Claim C9 -/

/-- C9, counterexample.  `loadIndex` installs whatever the snapshot holds;
for `badSnap` the loaded generation has `"a"` in the index but an empty
doc store, so the invariant fails after a successful load.  The claim's
universal statement over loads is false. -/
theorem c9_counterexample :
    (loadIndex badSnap (mkEngine "docs")).index = some badSnap.index ∧
    ¬ invariantHolds badSnap.index (loadIndex badSnap (mkEngine "docs")).docStore := by
  exact ⟨rfl, by decide⟩

/-- C9, amended: the invariant holds after every `buildIndex`, and it
holds after loading a snapshot that `saveIndex` produced from a state
satisfying it (in particular any snapshot written by a build); a snapshot
from any other source may violate it. -/
theorem c9_amended :
    (∀ (docs : List DocEntry) (st0 : EngineState) (now : String),
      ∃ idx, (buildIndex docs st0 now).1.index = some idx ∧
        invariantHolds idx (buildIndex docs st0 now).1.docStore) ∧
    (∀ (st st1 : EngineState) (now : String) (snap : Snapshot) (idx : LunrIndexData),
      saveIndex st now = some snap → st.index = some idx →
      invariantHolds idx st.docStore →
      ∃ idx2, (loadIndex snap st1).index = some idx2 ∧
        invariantHolds idx2 (loadIndex snap st1).docStore) := by
  constructor
  · intro docs st0 now
    exact ⟨lunrBuild docs, rfl, invariant_build docs⟩
  · intro st st1 now snap idx hsave hidx hinv
    unfold saveIndex at hsave
    rw [hidx] at hsave
    have hsnap : ({ version := now, index := idx, docStore := st.docStore } : Snapshot) = snap := by
      simpa using hsave
    refine ⟨snap.index, rfl, ?_⟩
    rw [← hsnap]
    exact hinv

/-- C9, witness: save-then-load of a built generation keeps the invariant. -/
theorem c9_amended_witness :
    ∃ idx2, (loadIndex snapW (mkEngine "e")).index = some idx2 ∧
      invariantHolds idx2 (loadIndex snapW (mkEngine "e")).docStore :=
  c9_amended.2 (buildIndex docsW (mkEngine "d") "v").1 (mkEngine "e") "v" snapW
    (lunrBuild docsW) rfl rfl (by decide)

/-! ## Claim C10 -/

/-- C10: the `search` method contains no assignment to any engine field,
so a call leaves the index, the doc store and the index path untouched;
consequently later searches and a later save behave as if the call had
never happened. -/
theorem c10_frame (st : EngineState) (q : String) (k : Nat) (dn : Option String)
    (ms : ℚ) (off : Nat) :
    (searchST st q k dn ms off).2 = st ∧
    (searchST st q k dn ms off).1 = search st q k dn ms off ∧
    (∀ (q2 : String) (k2 : Nat) (dn2 : Option String) (ms2 : ℚ) (off2 : Nat),
      search (searchST st q k dn ms off).2 q2 k2 dn2 ms2 off2 =
        search st q2 k2 dn2 ms2 off2) ∧
    (∀ now : String, saveIndex (searchST st q k dn ms off).2 now = saveIndex st now) ∧
    (searchST st q k dn ms off).2.indexPath = st.indexPath :=
  ⟨rfl, rfl, fun _ _ _ _ _ => rfl, fun _ => rfl, rfl⟩

/-! ## Claim C6 -/

/-- C6: when a category filter is given and the call returns, every
returned result's title starts with `"<filter>/"` — the filter retains
exactly the docs whose stored title has that prefix, and the title later
attached to the result comes from the same store entry. -/
theorem c6_categoryFilter (st : EngineState) (q : String) (k : Nat) (cat : String)
    (ms : ℚ) (off : Nat) (rs : List SearchResult)
    (h : search st q k (some cat) ms off = .ok rs) :
    ∀ r ∈ rs, startsWith r.title (cat ++ "/") = true := by
  cases hidx : st.index with
  | none => simp [search, hidx] at h
  | some idx =>
    cases hf : filteredHits idx st.docStore q (some cat) ms with
    | error e => simp [search, hidx, hf] at h
    | ok hits =>
      simp only [search, hidx, hf] at h
      intro r hr
      rcases resolveHits_mem h r hr with ⟨x, hx, d, hd, hpath, hscore, htitle, hex⟩
      cases hfc : filterByCat st.docStore cat (lunrSearch idx q) with
      | error e => simp [filteredHits, hfc] at hf
      | ok l2 =>
        simp only [filteredHits, hfc, Except.ok.injEq] at hf
        have hx2 : x ∈ l2 := by
          have hsub : List.Sublist ((hits.drop off).take k) hits :=
            (List.take_sublist _ _).trans (List.drop_sublist _ _)
          have hxh : x ∈ hits := hsub.mem hx
          rw [← hf] at hxh
          exact List.mem_of_mem_filter hxh
        rcases filterByCat_mem hfc x hx2 with ⟨d2, hd2, hpre⟩
        have hdd : d = d2 := by
          rw [hd] at hd2
          exact (Option.some.injEq _ _).mp hd2
        rw [htitle, hdd]
        exact hpre

/-- C6, witness: on a two-document corpus, filtering by `"guides"` keeps
only the document whose title carries that prefix. -/
theorem c6_witness :
    startsWith "guides/setup" ("guides" ++ "/") = true :=
  c6_categoryFilter
    (buildIndex [{ path := "p1", title := "guides/setup", content := "Setup the fox trap" },
                 { path := "p2", title := "Intro", content := "The quick brown fox" }]
      (mkEngine "docs") "v").1
    "fox" 10 "guides" 0 0
    [{ path := "p1", score := ((1 : ℕ) : ℚ), title := "guides/setup",
       excerpt := "Setup the **fox** trap" }]
    (by decide)
    { path := "p1", score := ((1 : ℕ) : ℚ), title := "guides/setup",
      excerpt := "Setup the **fox** trap" }
    (by decide)

/-! ## Claim C7 -/

theorem flatten_chunks {α : Type} (l : List α) (k : Nat) :
    ∀ m : Nat, ((List.range m).map fun i => (l.drop (i * k)).take k).flatten = l.take (m * k) := by
  intro m
  induction m with
  | zero => simp
  | succ n ih =>
    rw [List.range_succ, List.map_append, List.flatten_append]
    simp only [List.map_cons, List.map_nil, List.flatten_cons, List.flatten_nil,
      List.append_nil]
    rw [ih, Nat.succ_mul, List.take_add]

/-- C7: paging through a fixed generation in steps of `maxResults`
reconstructs the full filtered ranked list exactly — no duplicates, no
gaps — and every page request returns normally. -/
theorem c7_pagination (st : EngineState) (q : String) (k : Nat) (dn : Option String)
    (ms : ℚ) (full : List SearchResult) (m : Nat)
    (hfull : fullResults st q dn ms = .ok full)
    (hm : full.length ≤ m * k) :
    ((List.range m).map fun i => okList (search st q k dn ms (i * k))).flatten = full ∧
    (∀ off : Nat, ∃ rs, search st q k dn ms off = .ok rs) := by
  cases hidx : st.index with
  | none => simp [fullResults, hidx] at hfull
  | some idx =>
    cases hf : filteredHits idx st.docStore q dn ms with
    | error e => simp [fullResults, hidx, hf] at hfull
    | ok hits =>
      simp only [fullResults, hidx, hf] at hfull
      have hmem : ∀ x ∈ hits, ∃ d, storeLookup st.docStore x.ref = some d ∧
          ∃ ex, createExcerpt d.content q = .ok ex :=
        resolveHits_ok_mem hfull
      have hok : ∀ off2 k2 : Nat, ∃ rs,
          resolveHits st.docStore q ((hits.drop off2).take k2) = .ok rs := by
        intro off2 k2
        apply resolveHits_ok_of
        intro x hx
        exact hmem x (((List.take_sublist _ _).trans (List.drop_sublist _ _)).mem hx)
      have hsearch : ∀ off2 : Nat, search st q k dn ms off2 =
          resolveHits st.docStore q ((hits.drop off2).take k) := by
        intro off2
        simp only [search, hidx, hf]
      constructor
      · have key : ∀ n : Nat, ∃ rsn,
            resolveHits st.docStore q (hits.take (n * k)) = .ok rsn ∧
            ((List.range n).map fun i => okList (search st q k dn ms (i * k))).flatten = rsn := by
          intro n
          induction n with
          | zero => exact ⟨[], by simp [resolveHits], by simp⟩
          | succ n2 ih =>
            rcases ih with ⟨rsn, hres, hjoin⟩
            rcases hok (n2 * k) k with ⟨rc, hrc⟩
            have happ := resolveHits_append hres hrc
            rw [← List.take_add] at happ
            refine ⟨rsn ++ rc, by rw [Nat.succ_mul]; exact happ, ?_⟩
            rw [List.range_succ, List.map_append, List.flatten_append, hjoin]
            simp only [List.map_cons, List.map_nil, List.flatten_cons, List.flatten_nil,
              List.append_nil]
            rw [hsearch (n2 * k), hrc]
            rfl
        rcases key m with ⟨rsm, hres, hjoin⟩
        have hlen : hits.length ≤ m * k := by
          rw [← resolveHits_length hfull]
          exact hm
        rw [List.take_of_length_le hlen] at hres
        rw [hfull] at hres
        rw [hjoin]
        exact ((Except.ok.injEq _ _).mp hres).symm
      · intro off2
        rw [hsearch off2]
        exact hok off2 k

/-- C7, witness: a two-document generation paged with `maxResults = 1`. -/
theorem c7_witness :
    ((List.range 2).map fun i =>
        okList (search (buildIndex [{ path := "a", title := "t", content := "fox" },
            { path := "b", title := "u", content := "fox fox" }] (mkEngine "d") "v").1
          "fox" 1 none 0 (i * 1))).flatten =
      [{ path := "b", score := ((2 : ℕ) : ℚ), title := "u", excerpt := "**fox** **fox**" },
       { path := "a", score := ((1 : ℕ) : ℚ), title := "t", excerpt := "**fox**" }] ∧
    (∀ off : Nat, ∃ rs, search (buildIndex [{ path := "a", title := "t", content := "fox" },
        { path := "b", title := "u", content := "fox fox" }] (mkEngine "d") "v").1
      "fox" 1 none 0 off = .ok rs) :=
  c7_pagination
    (buildIndex [{ path := "a", title := "t", content := "fox" },
        { path := "b", title := "u", content := "fox fox" }] (mkEngine "d") "v").1
    "fox" 1 none 0
    [{ path := "b", score := ((2 : ℕ) : ℚ), title := "u", excerpt := "**fox** **fox**" },
     { path := "a", score := ((1 : ℕ) : ℚ), title := "t", excerpt := "**fox**" }]
    2 (by decide) (by decide)

/-! ## Claim C8 -/

/-- C8: results come out sorted by descending score, and the underlying
filtered ranked list orders equal scores by ascending index position —
the stable build-time insertion order. -/
theorem c8_sorted (st : EngineState) (q : String) (k : Nat) (dn : Option String)
    (ms : ℚ) (off : Nat) (idx : LunrIndexData) (hits : List Hit) (rs : List SearchResult)
    (hidx : st.index = some idx)
    (hfil : filteredHits idx st.docStore q dn ms = .ok hits)
    (hs : search st q k dn ms off = .ok rs) :
    rs.Pairwise (fun a b => b.score ≤ a.score) ∧
    hits.Pairwise hitLE ∧
    rs.map SearchResult.score = ((hits.drop off).take k).map Hit.score := by
  have hhits : hits.Pairwise hitLE :=
    (lunrSearch_pairwise idx q).sublist (filteredHits_sublist hfil)
  have hchunk : ((hits.drop off).take k).Pairwise hitLE :=
    hhits.sublist ((List.take_sublist _ _).trans (List.drop_sublist _ _))
  have hres : resolveHits st.docStore q ((hits.drop off).take k) = .ok rs := by
    simp only [search, hidx, hfil] at hs
    exact hs
  have hscores := resolveHits_scores hres
  refine ⟨?_, hhits, hscores⟩
  have h1 : (((hits.drop off).take k).map Hit.score).Pairwise (fun a b : ℚ => b ≤ a) := by
    rw [List.pairwise_map]
    exact hchunk.imp (fun hab => hab.elim le_of_lt (fun hp => le_of_eq hp.1.symm))
  have h2 : (rs.map SearchResult.score).Pairwise (fun a b : ℚ => b ≤ a) := by
    rw [hscores]
    exact h1
  rw [List.pairwise_map] at h2
  exact h2

/-- C8, witness: a corpus with a score tie; the ranked list orders the tie
by build position. -/
theorem c8_witness :
    ([{ path := "p1", score := ((1 : ℕ) : ℚ), title := "guides/setup",
        excerpt := "Setup the **fox** trap" },
      { path := "p2", score := ((1 : ℕ) : ℚ), title := "Intro",
        excerpt := "The quick brown **fox**" }] : List SearchResult).Pairwise
        (fun a b => b.score ≤ a.score) ∧
    ([{ ref := "p1", score := ((1 : ℕ) : ℚ), pos := 0 },
      { ref := "p2", score := ((1 : ℕ) : ℚ), pos := 1 }] : List Hit).Pairwise hitLE ∧
    ([{ path := "p1", score := ((1 : ℕ) : ℚ), title := "guides/setup",
        excerpt := "Setup the **fox** trap" },
      { path := "p2", score := ((1 : ℕ) : ℚ), title := "Intro",
        excerpt := "The quick brown **fox**" }] : List SearchResult).map SearchResult.score =
      ((([{ ref := "p1", score := ((1 : ℕ) : ℚ), pos := 0 },
          { ref := "p2", score := ((1 : ℕ) : ℚ), pos := 1 }] : List Hit).drop 0).take 10).map
        Hit.score :=
  c8_sorted
    (buildIndex [{ path := "p1", title := "guides/setup", content := "Setup the fox trap" },
        { path := "p2", title := "Intro", content := "The quick brown fox" }]
      (mkEngine "docs") "v").1
    "fox" 10 none 0 0
    (lunrBuild [{ path := "p1", title := "guides/setup", content := "Setup the fox trap" },
        { path := "p2", title := "Intro", content := "The quick brown fox" }])
    [{ ref := "p1", score := ((1 : ℕ) : ℚ), pos := 0 },
     { ref := "p2", score := ((1 : ℕ) : ℚ), pos := 1 }]
    [{ path := "p1", score := ((1 : ℕ) : ℚ), title := "guides/setup",
       excerpt := "Setup the **fox** trap" },
     { path := "p2", score := ((1 : ℕ) : ℚ), title := "Intro",
       excerpt := "The quick brown **fox**" }]
    rfl (by decide) (by decide)

/-! ## Excerpt lemmas: the replacement wraps exactly the greedy matches -/

theorem emphasizeAux_succ (q : List Char) (fuel : Nat) (s : List Char) :
    emphasizeAux q (fuel + 1) s =
      if q.isEmpty then
        match s with
        | [] => ['*', '*', '*', '*']
        | c :: t => '*' :: '*' :: '*' :: '*' :: c :: emphasizeAux q fuel t
      else if isPrefixCI q s then
        '*' :: '*' :: (s.take q.length ++ '*' :: '*' :: emphasizeAux q fuel (s.drop q.length))
      else
        match s with
        | [] => []
        | c :: t => c :: emphasizeAux q fuel t := by
  cases s <;> rfl

theorem gposAux_succ (q : List Char) (fuel : Nat) (s : List Char) :
    gposAux q (fuel + 1) s =
      (if q.isEmpty then List.range (s.length + 1)
       else if isPrefixCI q s then
         0 :: (gposAux q fuel (s.drop q.length)).map (· + q.length)
       else
         match s with
         | [] => []
         | _ :: t => (gposAux q fuel t).map (· + 1)) := by
  cases s <;> rfl

theorem wpos_cons (q s : List Char) (g : Nat) (gs : List Nat) :
    wpos q s (g :: gs) =
      s.take g ++ '*' :: '*' :: ((s.drop g).take q.length ++ '*' :: '*' ::
        wpos q (s.drop (g + q.length)) (gs.map (· - (g + q.length)))) := by
  unfold wpos
  rw [List.length_map, List.length_cons]
  rfl

theorem wpos_cons_shift (q : List Char) (c : Char) (t : List Char) (gs : List Nat) :
    wpos q (c :: t) (gs.map (· + 1)) = c :: wpos q t gs := by
  cases gs with
  | nil => rfl
  | cons g gs2 =>
    rw [List.map_cons, wpos_cons, wpos_cons]
    have h3 : (c :: t).drop (g + 1 + q.length) = t.drop (g + q.length) := by
      have he : g + 1 + q.length = (g + q.length) + 1 := by omega
      rw [he]
      rfl
    have h4 : (gs2.map (· + 1)).map (· - (g + 1 + q.length)) =
        gs2.map (· - (g + q.length)) := by
      rw [List.map_map]
      have he : ((fun x => x - (g + 1 + q.length)) ∘ fun x => x + 1) =
          fun x => x - (g + q.length) := by
        funext x
        simp only [Function.comp]
        omega
      rw [he]
    rw [h3, h4]
    rfl

theorem emphasizeAux_eq_wpos {q : List Char} (hq : q.isEmpty = false) :
    ∀ (fuel : Nat) (s : List Char), s.length < fuel →
      emphasizeAux q fuel s = wpos q s (gposAux q fuel s) := by
  intro fuel
  induction fuel with
  | zero => intro s h; omega
  | succ fuel ih =>
    intro s hlen
    have hL : 1 ≤ q.length := by
      cases hcq : q with
      | nil => rw [hcq] at hq; simp at hq
      | cons a t => simp
    rw [emphasizeAux_succ, gposAux_succ,
      if_neg (show ¬ (q.isEmpty = true) by simp [hq]),
      if_neg (show ¬ (q.isEmpty = true) by simp [hq])]
    by_cases hp : isPrefixCI q s
    · rw [if_pos hp, if_pos hp, wpos_cons]
      have hlen2 : (s.drop q.length).length < fuel := by
        have hsl := isPrefixCI_length hp
        rw [List.length_drop]
        omega
      have hcan : ((gposAux q fuel (s.drop q.length)).map (· + q.length)).map
          (· - (0 + q.length)) = gposAux q fuel (s.drop q.length) := by
        rw [List.map_map]
        have he : ((fun x => x - (0 + q.length)) ∘ fun x => x + q.length) = id := by
          funext x
          simp only [Function.comp, id_eq]
          omega
        rw [he, List.map_id]
      rw [hcan]
      simp only [List.take_zero, List.drop_zero, Nat.zero_add, List.nil_append]
      rw [ih (s.drop q.length) hlen2]
    · rw [if_neg hp, if_neg hp]
      cases s with
      | nil => rfl
      | cons c t =>
        have hlen2 : t.length < fuel := by
          simp only [List.length_cons] at hlen
          omega
        show c :: emphasizeAux q fuel t = wpos q (c :: t) ((gposAux q fuel t).map (· + 1))
        rw [wpos_cons_shift, ih t hlen2]

theorem gposAux_sound {q : List Char} (hq : q.isEmpty = false) :
    ∀ (fuel : Nat) (s : List Char) (g : Nat), g ∈ gposAux q fuel s →
      isPrefixCI q (s.drop g) = true := by
  intro fuel
  induction fuel with
  | zero => intro s g hg; simp [gposAux] at hg
  | succ fuel ih =>
    intro s g hg
    rw [gposAux_succ, if_neg (by simp [hq])] at hg
    by_cases hp : isPrefixCI q s
    · rw [if_pos hp] at hg
      rcases List.mem_cons.mp hg with rfl | hmem
      · simpa using hp
      · rcases List.mem_map.mp hmem with ⟨x, hx, rfl⟩
        have hih := ih (s.drop q.length) x hx
        rw [List.drop_drop] at hih
        rw [Nat.add_comm]
        exact hih
    · rw [if_neg hp] at hg
      cases s with
      | nil => simp at hg
      | cons c t =>
        rcases List.mem_map.mp hg with ⟨x, hx, rfl⟩
        exact ih t x hx

theorem gposAux_complete {q : List Char} (hq : q.isEmpty = false) :
    ∀ (fuel : Nat) (s : List Char), s.length < fuel →
      ∀ i : Nat, isPrefixCI q (s.drop i) = true →
        i ∈ gposAux q fuel s ∨
        ∃ g ∈ gposAux q fuel s, g < i ∧ i < g + q.length := by
  intro fuel
  induction fuel with
  | zero => intro s h; omega
  | succ fuel ih =>
    intro s hlen i hi
    have hL : 1 ≤ q.length := by
      cases hcq : q with
      | nil => rw [hcq] at hq; simp at hq
      | cons a t => simp
    by_cases hp : isPrefixCI q s
    · rw [gposAux_succ, if_neg (by simp [hq]), if_pos hp]
      rcases Nat.lt_or_ge i q.length with hiL | hiL
      · rcases Nat.eq_zero_or_pos i with h0 | hpos
        · subst h0
          exact Or.inl (List.mem_cons_self _ _)
        · exact Or.inr ⟨0, List.mem_cons_self _ _, hpos, by omega⟩
      · have hsl := isPrefixCI_length hi
        rw [List.length_drop] at hsl
        have hdrop : (s.drop q.length).drop (i - q.length) = s.drop i := by
          rw [List.drop_drop]
          congr 1
          omega
        have hi2 : isPrefixCI q ((s.drop q.length).drop (i - q.length)) = true := by
          rw [hdrop]
          exact hi
        have hlen2 : (s.drop q.length).length < fuel := by
          rw [List.length_drop]
          omega
        rcases ih (s.drop q.length) hlen2 (i - q.length) hi2 with hmem | ⟨g0, hg0, h1, h2⟩
        · exact Or.inl (List.mem_cons_of_mem _
            (List.mem_map.mpr ⟨i - q.length, hmem, by omega⟩))
        · exact Or.inr ⟨g0 + q.length,
            List.mem_cons_of_mem _ (List.mem_map.mpr ⟨g0, hg0, rfl⟩), by omega, by omega⟩
    · cases s with
      | nil =>
        exfalso
        rw [List.drop_nil, isPrefixCI_nil (by simp [hq])] at hi
        simp at hi
      | cons c t =>
        rw [gposAux_succ, if_neg (by simp [hq]), if_neg hp]
        cases i with
        | zero => exact absurd hi (by simpa using hp)
        | succ j =>
          have hi2 : isPrefixCI q (t.drop j) = true := hi
          have hlen2 : t.length < fuel := by
            simp only [List.length_cons] at hlen
            omega
          rcases ih t hlen2 j hi2 with hmem | ⟨g0, hg0, h1, h2⟩
          · exact Or.inl (List.mem_map.mpr ⟨j, hmem, rfl⟩)
          · exact Or.inr ⟨g0 + 1, List.mem_map.mpr ⟨g0, hg0, rfl⟩, by omega, by omega⟩

theorem emphasizeAux_eq_wpos_nil :
    ∀ (fuel : Nat) (s : List Char), s.length < fuel →
      emphasizeAux [] fuel s = wpos [] s (List.range (s.length + 1)) := by
  intro fuel
  induction fuel with
  | zero => intro s h; omega
  | succ fuel ih =>
    intro s hlen
    cases s with
    | nil => rfl
    | cons c t =>
      have hlen2 : t.length < fuel := by
        simp only [List.length_cons] at hlen
        omega
      have hr : List.range ((c :: t).length + 1)
          = 0 :: (List.range (t.length + 1)).map (· + 1) := by
        rw [List.length_cons, List.range_succ_eq_map]
      rw [emphasizeAux_succ, if_pos (show ([] : List Char).isEmpty = true from rfl)]
      show '*' :: '*' :: '*' :: '*' :: c :: emphasizeAux [] fuel t
          = wpos [] (c :: t) (List.range ((c :: t).length + 1))
      rw [hr, wpos_cons]
      have hm : ((List.range (t.length + 1)).map (· + 1)).map
          (· - (0 + ([] : List Char).length)) = (List.range (t.length + 1)).map (· + 1) := by
        rw [List.map_map]
        have he : ((fun x => x - (0 + ([] : List Char).length)) ∘ fun x => x + 1) =
            fun x => x + 1 := by
          funext x
          simp only [Function.comp, List.length_nil]
          omega
        rw [he]
      rw [hm]
      simp only [List.take_zero, List.drop_zero, List.length_nil, Nat.add_zero,
        List.nil_append]
      rw [wpos_cons_shift, ih t hlen2]

/-- The replacement renders exactly the greedy match positions, for every
pattern (the empty pattern matching at every position, as in JavaScript). -/
theorem emphasize_eq_wpos_gpos (q s : List Char) :
    emphasize q s = wpos q s (gpos q s) := by
  cases hq0 : q with
  | nil =>
    unfold emphasize gpos
    rw [gposAux_succ, if_pos (show ([] : List Char).isEmpty = true from rfl)]
    exact emphasizeAux_eq_wpos_nil (s.length + 1) s (Nat.lt_succ_self _)
  | cons a c =>
    unfold emphasize gpos
    exact emphasizeAux_eq_wpos (show (a :: c).isEmpty = false from rfl)
      (s.length + 1) s (Nat.lt_succ_self _)

theorem gposAux_sound_total {q : List Char} (fuel : Nat) (s : List Char) (g : Nat)
    (hg : g ∈ gposAux q fuel s) : isPrefixCI q (s.drop g) = true := by
  cases hq0 : q with
  | nil => rfl
  | cons a c =>
    subst hq0
    exact gposAux_sound (show (a :: c).isEmpty = false from rfl) fuel s g hg

theorem gposAux_complete_total {q : List Char} :
    ∀ (fuel : Nat) (s : List Char), s.length < fuel →
      ∀ i : Nat, i + q.length ≤ s.length → isPrefixCI q (s.drop i) = true →
        i ∈ gposAux q fuel s ∨
        ∃ g ∈ gposAux q fuel s, g < i ∧ i < g + q.length := by
  cases hq0 : q with
  | nil =>
    intro fuel
    cases fuel with
    | zero => intro s h; omega
    | succ f2 =>
      intro s hlen i hib hi
      rw [gposAux_succ, if_pos (show ([] : List Char).isEmpty = true from rfl)]
      simp only [List.length_nil, Nat.add_zero] at hib
      exact Or.inl (List.mem_range.mpr (by omega))
  | cons a c =>
    subst hq0
    intro fuel s hlen i hib hi
    exact gposAux_complete (show (a :: c).isEmpty = false from rfl) fuel s hlen i hi

/-! ## Claim C3 -/

/-- C3, counterexample.  For content `"aaa"` and query `"aa"` the excerpt
is `"**aa**a"`: the occurrence of `"aa"` at index 1 of the window lies
inside the window but its second character is not emphasised — the global
replace resumes *after* each match, skipping overlapping occurrences.  So
not every occurrence inside the window is wrapped. -/
theorem c3_counterexample : ¬ claim3 "aaa" "aa" := by
  unfold claim3
  decide

/-- C3, amended: for every query on the regex-literal domain (no regex
metacharacter, so the source's unescaped `new RegExp(query, 'gi')` means
case-insensitive literal matching), the excerpt is the clamped window —
verbatim when the content has no occurrence — and with an occurrence
present the markers wrap precisely the greedy left-to-right
non-overlapping matches: each wrapped position is a case-insensitive
occurrence, and every occurrence fitting inside the window either is
wrapped or starts strictly inside an earlier wrapped match.  Queries with
metacharacters make the replace regex-engine-dependent (different matches,
or a `SyntaxError`) and are outside this claim. -/
theorem c3_amended (content query : String) (hq : regexLiteral query.data = true) :
    claim3Amended content query := by
  constructor
  · intro hno
    simp [createExcerpt, hno]
  · intro p hp
    refine ⟨?_, ?_, ?_⟩
    · simp only [createExcerpt, hp, if_pos hq]
      rw [emphasize_eq_wpos_gpos]
    · intro g hg
      unfold gpos at hg
      exact gposAux_sound_total _ _ g hg
    · intro i hib hi
      unfold gpos
      exact gposAux_complete_total _ _ (Nat.lt_succ_self _) i hib hi

/-- C3, witness: the amended description at a concrete document. -/
theorem c3_amended_witness :
    regexLiteral ("fox" : String).data = true ∧
      claim3Amended "The quick brown fox" "fox" :=
  ⟨by decide, c3_amended "The quick brown fox" "fox" (by decide)⟩

end SearchEngine
